import Mathlib

/-!
Shallow embedding of the spiketools extraction, epoching and simulation
primitives (`spiketools/utils/extract.py`, `spiketools/utils/trials.py`,
`spiketools/sim/dist.py`), with theorems checking the specification's
claims about them.

Real-valued timestamps are modelled by `ℚ`; 1-d numpy arrays by `List ℚ`.
Python `None` optional arguments are modelled by `Option`; a raised
exception by `Except.error`.
-/

/-- Boolean-mask indexing `data[mask]`, as numpy does it: keep the elements
whose mask entry is `true`, in order. -/
def boolMask : List ℚ → List Bool → List ℚ
  | x :: xs, b :: bs => if b then x :: boolMask xs bs else boolMask xs bs
  | _, _ => []

/-- The per-element predicate of `create_mask`: within `[min_value, max_value]`,
an absent bound (numpy `-inf` / `inf`) always passing. -/
def maskPred (min_value max_value : Option ℚ) (x : ℚ) : Bool :=
  (match min_value with
   | none => true
   | some m => decide (m ≤ x)) &&
  (match max_value with
   | none => true
   | some m => decide (x ≤ m))

/-- Embedding of `create_mask` (extract.py): elementwise
`min_value <= data <= max_value`, unbounded sides defaulting to infinities. -/
def create_mask (data : List ℚ) (min_value max_value : Option ℚ) : List Bool :=
  data.map (maskPred min_value max_value)

/-- Embedding of `get_range` (extract.py): mask-select the data, then, when
`reset` is truthy in Python's sense (present and nonzero), subtract it. -/
def get_range (data : List ℚ) (min_value max_value : Option ℚ)
    (reset : Option ℚ) : List ℚ :=
  let masked := boolMask data (create_mask data min_value max_value)
  match reset with
  | none => masked
  | some r => if r = 0 then masked else masked.map (fun x => x - r)

/-- Index of the first minimum of `|x - tp|` over the remaining list, carrying
the running best index and best value; embeds `np.abs(times - tp).argmin()`
(first-occurrence tie-breaking). -/
def argminAbsAux (tp : ℚ) : List ℚ → Nat → Nat → ℚ → Nat
  | [], _, best, _ => best
  | x :: rest, i, best, bestv =>
      if |x - tp| < bestv then argminAbsAux tp rest (i + 1) i |x - tp|
      else argminAbsAux tp rest (i + 1) best bestv

/-- Embedding of `np.abs(times - timepoint).argmin()` over a list
(0 on the empty list, where numpy would raise). -/
def argminAbs (times : List ℚ) (tp : ℚ) : Nat :=
  match times with
  | [] => 0
  | x :: rest => argminAbsAux tp rest 1 0 |x - tp|

/-- Embedding of `get_ind_by_time` (extract.py): nearest index by absolute
distance; when `threshold` is truthy (present and nonzero) and the nearest
distance exceeds it, the sentinel -1. -/
def get_ind_by_time (times : List ℚ) (timepoint : ℚ)
    (threshold : Option ℚ) : Int :=
  let ind := argminAbs times timepoint
  match threshold with
  | none => (ind : Int)
  | some t =>
      if t = 0 then (ind : Int)
      else if |times.getD ind 0 - timepoint| > t then -1 else (ind : Int)

/-- Embedding of `get_inds_by_times` (extract.py): the locator per query
timepoint, dropping the -1 sentinels when `drop_null`. -/
def get_inds_by_times (times timepoints : List ℚ) (threshold : Option ℚ)
    (drop_null : Bool) : List Int :=
  let inds := timepoints.map (fun tp => get_ind_by_time times tp threshold)
  if drop_null then inds.filter (fun i => decide (0 ≤ i)) else inds

/-- Embedding of `get_value_by_time` (extract.py), for 1-d values: the value
at the located index, or `none` (numpy NaN) at the -1 sentinel. -/
def get_value_by_time (times values : List ℚ) (timepoint : ℚ)
    (threshold : Option ℚ) : Option ℚ :=
  let idx := get_ind_by_time times timepoint threshold
  if 0 ≤ idx then some (values.getD idx.toNat 0) else none

/-- Embedding of `get_values_by_times` (extract.py), for 1-d values: batched
lookup; with `drop_null` the sentinels are dropped before `values.take`,
otherwise each sentinel position holds NaN (`none`). -/
def get_values_by_times (times values timepoints : List ℚ)
    (threshold : Option ℚ) (drop_null : Bool) : List (Option ℚ) :=
  let inds := get_inds_by_times times timepoints threshold drop_null
  if drop_null then
    inds.map (fun i => some (values.getD i.toNat 0))
  else
    inds.map (fun i => if 0 ≤ i then some (values.getD i.toNat 0) else none)

-- Basic rewriting lemmas connecting the mask-based selection to `List.filter`.

theorem boolMask_map (p : ℚ → Bool) :
    ∀ l : List ℚ, boolMask l (l.map p) = l.filter p := by
  intro l
  induction l with
  | nil => rfl
  | cons x xs ih =>
      by_cases h : p x <;> simp [boolMask, List.filter_cons, h, ih]

theorem get_range_none (data : List ℚ) (mn mx : Option ℚ) :
    get_range data mn mx none = data.filter (maskPred mn mx) := by
  simp [get_range, create_mask, boolMask_map]

theorem get_range_some (data : List ℚ) (mn mx : Option ℚ) (r : ℚ) :
    get_range data mn mx (some r) =
      (data.filter (maskPred mn mx)).map (fun x => x - r) := by
  by_cases hr : r = 0
  · simp [get_range, create_mask, boolMask_map, hr]
  · simp [get_range, create_mask, boolMask_map, hr]

theorem maskPred_max (a x : ℚ) : maskPred none (some a) x = decide (x ≤ a) := by
  simp [maskPred]

theorem maskPred_min (a x : ℚ) : maskPred (some a) none x = decide (a ≤ x) := by
  simp [maskPred]

theorem maskPred_both (a b x : ℚ) :
    maskPred (some a) (some b) x = (decide (a ≤ x) && decide (x ≤ b)) := rfl

/-- The loop body of `drop_range` (extract.py): per range, adjust by the
cumulative dropped length when positive, optionally assert the closed range
holds no spikes, then splice `x <= start` with `x >= stop` shifted left by the
range length; `assert` failure is `Except.error`. -/
def dropRangeLoop (check_empty : Bool) :
    List ℚ → List (ℚ × ℚ) → ℚ → Except String (List ℚ)
  | spikes, [], _ => .ok spikes
  | spikes, trange :: rest, total_len =>
      let tr := if total_len > 0
        then (trange.1 - total_len, trange.2 - total_len) else trange
      if check_empty && !(get_range spikes (some tr.1) (some tr.2) none).isEmpty
      then .error "Extracted range is not empty."
      else
        let tlen := tr.2 - tr.1
        dropRangeLoop check_empty
          (get_range spikes none (some tr.1) none ++
            get_range spikes (some tr.2) none (some tlen))
          rest (total_len + (tr.2 - tr.1))

/-- Embedding of `drop_range` (extract.py), for a list of ranges. The
`spikes.copy()` is identity at value level (see the store model below for the
frame claim). -/
def drop_range (spikes : List ℚ) (time_range : List (ℚ × ℚ))
    (check_empty : Bool) : Except String (List ℚ) :=
  dropRangeLoop check_empty spikes time_range 0

/-- The emptiness condition `drop_range` asserts with `check_empty`: every
range, adjusted by the cumulative dropped length exactly as the loop adjusts
it, holds no spikes at the moment it is processed. -/
def rangesEmpty : List ℚ → List (ℚ × ℚ) → ℚ → Bool
  | _, [], _ => true
  | spikes, trange :: rest, total_len =>
      let tr := if total_len > 0
        then (trange.1 - total_len, trange.2 - total_len) else trange
      if (get_range spikes (some tr.1) (some tr.2) none).isEmpty then
        let tlen := tr.2 - tr.1
        rangesEmpty
          (get_range spikes none (some tr.1) none ++
            get_range spikes (some tr.2) none (some tlen))
          rest (total_len + (tr.2 - tr.1))
      else false

/-- Embedding of `_reinstate_range_1d` (extract.py): splice `x <= start` with
`x >= start` shifted right by the range length. -/
def _reinstate_range_1d (spikes : List ℚ) (time_range : ℚ × ℚ) : List ℚ :=
  let tlen := time_range.2 - time_range.1
  get_range spikes none (some time_range.1) none ++
    (get_range spikes (some time_range.1) none none).map (fun x => x + tlen)

/-- One range of the `reinstate_range` loop over the rows of the (2-d) spikes
array: the in-place row assignment `spikes[ind, :] = ...` fails (numpy
broadcast `ValueError`) when the reinstated row's length differs from the
fixed row width. -/
def reinstRows : List (List ℚ) → ℚ × ℚ → Except String (List (List ℚ))
  | [], _ => .ok []
  | row :: rest, tr =>
      let nr := _reinstate_range_1d row tr
      if nr.length = row.length then
        (reinstRows rest tr).map (fun rs => nr :: rs)
      else .error "could not broadcast input array"

/-- Embedding of `reinstate_range` (extract.py) on an explicitly 2-d array
(list of rows), iterating the ranges in order over all rows. -/
def reinstate_range (rows : List (List ℚ)) :
    List (ℚ × ℚ) → Except String (List (List ℚ))
  | [] => .ok rows
  | tr :: rest => (reinstRows rows tr).bind (fun rs => reinstate_range rs rest)

/-- Embedding of `reinstate_range` called on a 1-d spikes array: `atleast_2d`
wraps it as a single row and the final `squeeze` unwraps it. -/
def reinstate_range1 (spikes : List ℚ) (time_range : List (ℚ × ℚ)) :
    Except String (List ℚ) :=
  (reinstate_range [spikes] time_range).map (fun rows => rows.headD [])

/-- Modelled from the spec: `restrict_range` is imported by
`spiketools/utils/trials.py` from `spiketools/utils/data.py`, a module not in
the sources here. Per the spec (and the repository's own tests), it keeps the
values lying in `[min_value, max_value]`, inclusive on both sides. -/
def restrict_range (spikes : List ℚ) (min_value max_value : ℚ) : List ℚ :=
  spikes.filter (fun x => decide (min_value ≤ x) && decide (x ≤ max_value))

/-- Embedding of `epoch_spikes_by_event` (trials.py): per event, restrict the
spikes to `[event + window0, event + window1]` and re-zero by the event time;
the trials list is index-aligned with the events list. -/
def epoch_spikes_by_event (spikes events : List ℚ) (window0 window1 : ℚ) :
    List (List ℚ) :=
  events.map (fun event =>
    (restrict_range spikes (event + window0) (event + window1)).map
      (fun x => x - event))

/-- The `p_spiking` argument of `sim_spiketrain_binom`: a Python float or a
probability vector. -/
inductive PSpike where
  | scalar : ℚ → PSpike
  | vector : List ℚ → PSpike

/-- Embedding of the input-validation path of `sim_spiketrain_binom`
(sim/dist.py): raises iff `p_spiking` is a float and `n_samples` is None;
the draw from `np.random.binomial` itself is random and abstracted to `()`. -/
def sim_spiketrain_binom (p_spiking : PSpike) (n_samples : Option Nat) :
    Except String Unit :=
  match p_spiking, n_samples with
  | .scalar _, none =>
      .error "Input variable n_samples must be defined if p_spiking is a float"
  | _, _ => .ok ()

/-!
Store model for the frame claim: numpy arrays live in a store (a list of
arrays) and are passed by reference (an index into the store), so that
`spikes.copy()` and in-place row assignment are visible operations.
-/

/-- A heap of 1-d arrays; an array reference is an index into it. -/
abbrev Store := List (List ℚ)

/-- Allocate a fresh array in the store, returning its reference. -/
def alloc (st : Store) (arr : List ℚ) : Store × Nat :=
  (st ++ [arr], st.length)

/-- Read the array an index refers to. -/
def readArr (st : Store) (r : Nat) : List ℚ :=
  st.getD r []

/-- Overwrite, in place, the array an index refers to. -/
def writeArr (st : Store) (r : Nat) (arr : List ℚ) : Store :=
  st.set r arr

/-- The `drop_range` loop at store level: each `np.hstack` allocates a fresh
array and the local variable is rebound to it; an `assert` failure leaves the
store as it is and raises. -/
def dropRangeLoopSt (check_empty : Bool) :
    Store → Nat → List (ℚ × ℚ) → ℚ → Store × Except String Nat
  | st, r, [], _ => (st, .ok r)
  | st, r, trange :: rest, total_len =>
      let tr := if total_len > 0
        then (trange.1 - total_len, trange.2 - total_len) else trange
      let spikes := readArr st r
      if check_empty && !(get_range spikes (some tr.1) (some tr.2) none).isEmpty
      then (st, .error "Extracted range is not empty.")
      else
        let tlen := tr.2 - tr.1
        let alloc1 := alloc st (get_range spikes none (some tr.1) none ++
          get_range spikes (some tr.2) none (some tlen))
        dropRangeLoopSt check_empty alloc1.1 alloc1.2 rest
          (total_len + (tr.2 - tr.1))

/-- Embedding of `drop_range` at store level: `spikes = spikes.copy()` first
allocates a private copy, and the loop then only ever reads it. -/
def drop_range_st (st : Store) (r : Nat) (time_range : List (ℚ × ℚ))
    (check_empty : Bool) : Store × Except String Nat :=
  let copy := alloc st (readArr st r)
  dropRangeLoopSt check_empty copy.1 copy.2 time_range 0

/-- The `reinstate_range` loop at store level for a 1-d input (one row): each
range rewrites the row in place through `spikes[ind, :] = ...`, which fails
without writing when the new row's length differs from the row width. -/
def reinstLoopSt : Store → Nat → List (ℚ × ℚ) → Store × Except String Nat
  | st, r, [] => (st, .ok r)
  | st, r, tr :: rest =>
      let row := readArr st r
      let nr := _reinstate_range_1d row tr
      if nr.length = row.length then reinstLoopSt (writeArr st r nr) r rest
      else (st, .error "could not broadcast input array")

/-- Embedding of `reinstate_range` at store level for a 1-d input:
`spikes = spikes.copy()` allocates a private copy and every in-place row
write then targets that copy. -/
def reinstate_range_st (st : Store) (r : Nat) (time_range : List (ℚ × ℚ)) :
    Store × Except String Nat :=
  let copy := alloc st (readArr st r)
  reinstLoopSt copy.1 copy.2 time_range

-- Helper lemmas about indices and the arg-min.

theorem getD_mem : ∀ (l : List ℚ) (n : Nat) (d : ℚ), n < l.length →
    l.getD n d ∈ l := by
  intro l
  induction l with
  | nil => intro n d h; simp at h
  | cons x xs ih =>
      intro n d h
      cases n with
      | zero => simp
      | succ m =>
          simp only [List.getD_cons_succ]
          exact List.mem_cons_of_mem x (ih m d (by simpa using h))

theorem argminAbsAux_lt (tp : ℚ) :
    ∀ (rest : List ℚ) (i best : Nat) (bv : ℚ) (n : Nat), best < n →
      i + rest.length ≤ n → argminAbsAux tp rest i best bv < n := by
  intro rest
  induction rest with
  | nil => intro i best bv n hb _; simpa [argminAbsAux] using hb
  | cons x xs ih =>
      intro i best bv n hb hlen
      simp only [argminAbsAux]
      by_cases hc : |x - tp| < bv
      · simp only [hc, if_true]
        exact ih (i + 1) i _ n (by simp at hlen; omega) (by simp at hlen; omega)
      · simp only [hc, if_false]
        exact ih (i + 1) best bv n hb (by simp at hlen; omega)

theorem argminAbs_lt (times : List ℚ) (tp : ℚ) (h : times ≠ []) :
    argminAbs times tp < times.length := by
  cases times with
  | nil => exact absurd rfl h
  | cons x rest =>
      exact argminAbsAux_lt tp rest 1 0 _ (rest.length + 1) (by omega) (by omega)

/-- C2 counterexample: with the non-negative threshold `t = 0`, Python's
`if threshold:` is falsy and the distance check is skipped, so with
`times = [0]` and `tp = 1` the nearest distance `1` exceeds `t = 0` and yet
`get_ind_by_time` returns the arg-min index `0` (not -1) and
`get_value_by_time` returns the value there (not NaN). -/
theorem claim_C2_cex :
    (0:ℚ) ≤ 0 ∧ (∀ x ∈ [(0:ℚ)], 0 < |x - 1|) ∧
      get_ind_by_time [(0:ℚ)] 1 (some 0) = 0 ∧
      get_value_by_time [(0:ℚ)] [7] 1 (some 0) = some 7 := by
  with_unfolding_all decide

/-- C2 (amended): for every nonempty time array, timepoint, and strictly
positive threshold `t`, when every element of `times` is farther than `t` from
the timepoint (so the minimal distance exceeds `t`), `get_ind_by_time` returns
the sentinel -1 and `get_value_by_time` returns NaN (`none`). -/
theorem claim_C2 (times values : List ℚ) (tp t : ℚ) (hne : times ≠ [])
    (ht : 0 < t) (hfar : ∀ x ∈ times, t < |x - tp|) :
    get_ind_by_time times tp (some t) = -1 ∧
      get_value_by_time times values tp (some t) = none := by
  have hlt := argminAbs_lt times tp hne
  have hmem := getD_mem times (argminAbs times tp) 0 hlt
  have hgt : t < |times.getD (argminAbs times tp) 0 - tp| := hfar _ hmem
  have hgt' : t < |times[argminAbs times tp]?.getD 0 - tp| := by simpa using hgt
  have ht0 : ¬(t = 0) := by exact ne_of_gt ht
  constructor
  · simp [get_ind_by_time, ht0, hgt']
  · simp [get_value_by_time, get_ind_by_time, ht0, hgt']

theorem claim_C2_witness :
    get_ind_by_time [(0:ℚ)] 1 (some (1/2)) = -1 ∧
      get_value_by_time [(0:ℚ)] [7] 1 (some (1/2)) = none :=
  claim_C2 [(0:ℚ)] [7] 1 (1/2) (by with_unfolding_all decide)
    (by with_unfolding_all decide) (by with_unfolding_all decide)

/-- C3: a reset value of exactly zero is indistinguishable from "no reset":
`get_range` with `reset = 0` returns exactly what it returns with no reset,
for every data array and bounds. -/
theorem claim_C3 (data : List ℚ) (mn mx : Option ℚ) :
    get_range data mn mx (some 0) = get_range data mn mx none := by
  rw [get_range_some, get_range_none]
  simp

/-- C5: the batched resolver agrees with the scalar resolver on singleton
queries: whenever the located index is not the -1 sentinel (always so with no
threshold, and with a threshold whenever the timepoint matches within it),
`get_values_by_times` on `[tp]` is exactly the one-element list holding
`get_value_by_time` at `tp`. -/
theorem claim_C5 (times values : List ℚ) (tp : ℚ) (th : Option ℚ)
    (h : 0 ≤ get_ind_by_time times tp th) :
    get_values_by_times times values [tp] th true =
      [get_value_by_time times values tp th] := by
  simp [get_values_by_times, get_inds_by_times, get_value_by_time, h]

theorem claim_C5_witness :
    get_values_by_times [(1:ℚ), 2] [5, 6] [2] none true =
      [get_value_by_time [(1:ℚ), 2] [5, 6] 2 none] :=
  claim_C5 [(1:ℚ), 2] [5, 6] 2 none (by with_unfolding_all decide)

/-- C8: `sim_spiketrain_binom` raises its input-validation `ValueError`
exactly when `p_spiking` is a scalar float and `n_samples` is None; with
`n_samples` provided, or with a probability vector, its own validation check
passes. -/
theorem claim_C8 :
    (∀ p : ℚ, sim_spiketrain_binom (.scalar p) none =
      .error
        "Input variable n_samples must be defined if p_spiking is a float") ∧
    (∀ (p : ℚ) (n : Nat), sim_spiketrain_binom (.scalar p) (some n) = .ok ()) ∧
    (∀ (ps : List ℚ) (ns : Option Nat),
      sim_spiketrain_binom (.vector ps) ns = .ok ()) := by
  refine ⟨fun p => rfl, fun p n => rfl, fun ps ns => ?_⟩
  cases ns <;> rfl

-- The assertion behaviour of `drop_range` mirrors `rangesEmpty` step for step.

theorem dropRangeLoop_ok_iff :
    ∀ (trs : List (ℚ × ℚ)) (spikes : List ℚ) (total : ℚ),
      (∃ out, dropRangeLoop true spikes trs total = .ok out) ↔
        rangesEmpty spikes trs total = true := by
  intro trs
  induction trs with
  | nil =>
      intro spikes total
      constructor
      · intro _; rfl
      · intro _; exact ⟨spikes, rfl⟩
  | cons tr rest ih =>
      intro spikes total
      simp only [dropRangeLoop, rangesEmpty]
      by_cases hemp :
          (get_range spikes
            (some ((if total > 0 then (tr.1 - total, tr.2 - total) else tr)).1)
            (some ((if total > 0 then (tr.1 - total, tr.2 - total) else tr)).2)
            none).isEmpty
      · simp only [hemp, Bool.not_true, Bool.and_false, Bool.false_eq_true,
          if_false, if_true]
        exact ih _ _
      · simp only [Bool.not_eq_true] at hemp
        simp [hemp]

/-- C6: with `check_empty`, `drop_range` raises (an assertion failure, not a
recoverable condition) exactly when, at some step of the loop, a spike lies in
the closed range to be dropped after the cumulative-offset adjustment for the
previously dropped ranges, and returns normally when every dropped range is
empty of spikes at the moment it is processed (`rangesEmpty`). -/
theorem claim_C6 (spikes : List ℚ) (trs : List (ℚ × ℚ)) :
    (∃ out, drop_range spikes trs true = .ok out) ↔
      rangesEmpty spikes trs 0 = true :=
  dropRangeLoop_ok_iff trs spikes 0

-- Store lemmas: allocation and off-index writes preserve existing entries.

theorem getD_append_lt :
    ∀ (l l' : List (List ℚ)) (i : Nat), i < l.length →
      (l ++ l').getD i [] = l.getD i [] := by
  intro l
  induction l with
  | nil => intro l' i h; simp at h
  | cons x xs ih =>
      intro l' i h
      cases i with
      | zero => rfl
      | succ m => exact ih l' m (by simpa using h)

theorem getD_set_ne :
    ∀ (l : List (List ℚ)) (r i : Nat) (v : List ℚ), i ≠ r →
      (l.set r v).getD i [] = l.getD i [] := by
  intro l
  induction l with
  | nil => intro r i v _; rfl
  | cons x xs ih =>
      intro r i v hne
      cases r with
      | zero =>
          cases i with
          | zero => exact absurd rfl hne
          | succ m => rfl
      | succ rm =>
          cases i with
          | zero => rfl
          | succ m =>
              simpa using ih rm m v (fun h => hne (by rw [h]))

theorem dropRangeLoopSt_preserves (ce : Bool) :
    ∀ (trs : List (ℚ × ℚ)) (st : Store) (r : Nat) (total : ℚ) (i : Nat),
      i < st.length →
      ((dropRangeLoopSt ce st r trs total).1).getD i [] = st.getD i [] := by
  intro trs
  induction trs with
  | nil => intros; rfl
  | cons tr rest ih =>
      intro st r total i hi
      simp only [dropRangeLoopSt]
      by_cases hc : (ce && !(get_range (readArr st r)
          (some ((if total > 0 then (tr.1 - total, tr.2 - total) else tr)).1)
          (some ((if total > 0 then (tr.1 - total, tr.2 - total) else tr)).2)
          none).isEmpty) = true
      · rw [if_pos hc]
      · rw [if_neg hc]
        refine Eq.trans (ih _ _ _ i ?_) (getD_append_lt st _ i hi)
        simp [alloc]
        omega

theorem reinstLoopSt_preserves :
    ∀ (trs : List (ℚ × ℚ)) (st : Store) (r : Nat) (i : Nat), i ≠ r →
      ((reinstLoopSt st r trs).1).getD i [] = st.getD i [] := by
  intro trs
  induction trs with
  | nil => intros; rfl
  | cons tr rest ih =>
      intro st r i hne
      simp only [reinstLoopSt]
      by_cases hl : (_reinstate_range_1d (readArr st r) tr).length =
          (readArr st r).length
      · simp only [hl, if_true]
        rw [ih (writeArr st r _) r i hne]
        exact getD_set_ne st r i _ hne
      · simp only [hl, if_false]

/-- C7: neither `drop_range` nor `reinstate_range` ever mutates the caller's
input array: in the store model, where the input is passed as a reference into
a heap of arrays, the entry the caller's reference points at holds exactly its
original contents after either call, for every range list (including calls
that raise partway through it) — both functions copy first and only ever
write elsewhere. -/
theorem claim_C7 (st : Store) (r : Nat) (trs : List (ℚ × ℚ)) (ce : Bool)
    (h : r < st.length) :
    readArr (drop_range_st st r trs ce).1 r = readArr st r ∧
      readArr (reinstate_range_st st r trs).1 r = readArr st r := by
  constructor
  · show ((dropRangeLoopSt ce (st ++ [readArr st r]) st.length trs 0).1).getD
      r [] = st.getD r []
    rw [dropRangeLoopSt_preserves ce trs (st ++ [readArr st r]) st.length 0 r
      (by simp; omega)]
    exact getD_append_lt st _ r h
  · show ((reinstLoopSt (st ++ [readArr st r]) st.length trs).1).getD
      r [] = st.getD r []
    rw [reinstLoopSt_preserves trs (st ++ [readArr st r]) st.length r
      (by omega)]
    exact getD_append_lt st _ r h

theorem claim_C7_witness :
    readArr (drop_range_st [[(1:ℚ), 2]] 0 [((3:ℚ), 4)] true).1 0 =
        readArr [[(1:ℚ), 2]] 0 ∧
      readArr (reinstate_range_st [[(1:ℚ), 2]] 0 [((3:ℚ), 4)]).1 0 =
        readArr [[(1:ℚ), 2]] 0 :=
  claim_C7 [[(1:ℚ), 2]] 0 [((3:ℚ), 4)] true (by decide)

-- `get_range` specialised to the call shapes of the eraser/reinstater.

theorem get_range_max (data : List ℚ) (a : ℚ) :
    get_range data none (some a) none =
      data.filter (fun x => decide (x ≤ a)) := by
  rw [get_range_none]
  exact List.filter_congr (fun x _ => maskPred_max a x)

theorem get_range_min (data : List ℚ) (a : ℚ) :
    get_range data (some a) none none =
      data.filter (fun x => decide (a ≤ x)) := by
  rw [get_range_none]
  exact List.filter_congr (fun x _ => maskPred_min a x)

theorem get_range_min_reset (data : List ℚ) (a t : ℚ) :
    get_range data (some a) none (some t) =
      (data.filter (fun x => decide (a ≤ x))).map (fun x => x - t) := by
  rw [get_range_some]
  rw [List.filter_congr (fun x _ => maskPred_min a x)]

theorem get_range_both (data : List ℚ) (a b : ℚ) :
    get_range data (some a) (some b) none =
      data.filter (fun x => decide (a ≤ x) && decide (x ≤ b)) := by
  rw [get_range_none]
  exact List.filter_congr (fun x _ => maskPred_both a b x)

-- Splitting a list at a point counts the elements equal to the point twice.

theorem length_filter_le_ge (a : ℚ) :
    ∀ l : List ℚ,
      (l.filter (fun x => decide (x ≤ a))).length +
        (l.filter (fun x => decide (a ≤ x))).length =
      l.length + (l.filter (fun x => decide (x = a))).length := by
  intro l
  induction l with
  | nil => rfl
  | cons x xs ih =>
      rcases lt_trichotomy x a with h | h | h
      · have h1 : x ≤ a := le_of_lt h
        have h2 : ¬(a ≤ x) := not_le.mpr h
        have h3 : ¬(x = a) := ne_of_lt h
        simp [List.filter_cons, h1, h2, h3]
        omega
      · subst h
        simp [List.filter_cons]
        omega
      · have h1 : ¬(x ≤ a) := not_le.mpr h
        have h2 : a ≤ x := le_of_lt h
        have h3 : ¬(x = a) := (ne_of_lt h).symm
        simp [List.filter_cons, h1, h2, h3]
        omega

theorem length_reinstate_1d (spikes : List ℚ) (a b : ℚ) :
    (_reinstate_range_1d spikes (a, b)).length =
      spikes.length + (spikes.filter (fun x => decide (x = a))).length := by
  simp only [_reinstate_range_1d, get_range_max, get_range_min,
    List.length_append, List.length_map]
  exact length_filter_le_ge a spikes

/-- C9: a spike exactly equal to a range's start is selected both into the
unshifted segment (`x <= start`) and the shifted segment (`x >= start`), so
the reinstated row is longer than the original and the fixed-width row
assignment in `reinstate_range` fails with a broadcast error rather than
returning a result. -/
theorem claim_C9 (spikes : List ℚ) (a b : ℚ) (h : a ∈ spikes) :
    reinstate_range1 spikes [(a, b)] =
      .error "could not broadcast input array" := by
  have hmem : a ∈ spikes.filter (fun x => decide (x = a)) :=
    List.mem_filter.mpr ⟨h, by simp⟩
  have hpos : 0 < (spikes.filter (fun x => decide (x = a))).length :=
    List.length_pos.mpr (List.ne_nil_of_mem hmem)
  have hne : ¬((_reinstate_range_1d spikes (a, b)).length = spikes.length) := by
    rw [length_reinstate_1d]
    omega
  simp [reinstate_range1, reinstate_range, reinstRows, hne, Except.map,
    Except.bind]

theorem claim_C9_witness :
    reinstate_range1 [(2:ℚ), 5] [((2:ℚ), 3)] =
      .error "could not broadcast input array" :=
  claim_C9 [(2:ℚ), 5] 2 3 (by decide)

-- Count bookkeeping for the left-shift in `drop_range`.

theorem count_map_sub (t a : ℚ) :
    ∀ l : List ℚ, (l.map (fun x => x - t)).count a = l.count (a + t) := by
  intro l
  induction l with
  | nil => rfl
  | cons x xs ih =>
      have hiff : x - t = a ↔ x = a + t := by constructor <;> intro hh <;> linarith
      by_cases hx : x = a + t
      · have hx' : x - t = a := hiff.mpr hx
        simp [List.count_cons, hx, hx', ih]
      · have hx' : ¬(x - t = a) := fun hh => hx (hiff.mp hh)
        simp [List.count_cons, hx, hx', ih]

theorem count_filter_of_pred (a : ℚ) (p : ℚ → Bool) (hp : p a = true) :
    ∀ l : List ℚ, (l.filter p).count a = l.count a := by
  intro l
  induction l with
  | nil => rfl
  | cons x xs ih =>
      by_cases hx : x = a
      · subst hx
        simp [List.filter_cons, hp, List.count_cons, ih]
      · by_cases hpx : p x = true
        · simp [List.filter_cons, hpx, List.count_cons, hx, ih]
        · rw [List.filter_cons, if_neg hpx, ih]
          simp [List.count_cons, hx]

theorem length_filter_outside (a b : ℚ) (hab : a < b) :
    ∀ l : List ℚ,
      (l.filter (fun x => decide (x ≤ a))).length +
        (l.filter (fun x => decide (b ≤ x))).length =
      (l.filter (fun x => !(decide (a < x) && decide (x < b)))).length := by
  intro l
  induction l with
  | nil => rfl
  | cons x xs ih =>
      rcases le_or_lt x a with h1 | h1
      · have h2 : ¬(b ≤ x) := not_le.mpr (lt_of_le_of_lt h1 hab)
        have h3 : ¬(a < x) := not_lt.mpr h1
        rw [List.filter_cons, List.filter_cons, List.filter_cons,
          if_pos (by simp [h1]), if_neg (by simp [h2]), if_pos (by simp [h3])]
        simp only [List.length_cons]
        omega
      · rcases le_or_lt b x with h2 | h2
        · have h3 : ¬(x ≤ a) := not_le.mpr h1
          have h4 : ¬(x < b) := not_lt.mpr h2
          rw [List.filter_cons, List.filter_cons, List.filter_cons,
            if_neg (by simp [h3]), if_pos (by simp [h2]),
            if_pos (by simp [h4])]
          simp only [List.length_cons]
          omega
        · have h3 : ¬(x ≤ a) := not_le.mpr h1
          have h4 : ¬(b ≤ x) := not_le.mpr h2
          rw [List.filter_cons, List.filter_cons, List.filter_cons,
            if_neg (by simp [h3]), if_neg (by simp [h4]),
            if_neg (by simp [h1, h2])]
          omega

/-- C10: with `check_empty` off, `drop_range` on a single range `(a, b)`
removes exactly the spikes strictly inside the open interval: the output has
one entry per spike not in `(a, b)`; a spike equal to the start `a` stays and
a spike equal to the stop `b` is shifted left by `b - a`, landing exactly on
`a` (so the output holds `a` once per original `a` plus once per original
`b`); every spike at or below `a` is kept unchanged and every spike at or
above `b` is kept shifted left by `b - a`. -/
theorem claim_C10 (spikes : List ℚ) (a b : ℚ) (hab : a < b) :
    ∃ out, drop_range spikes [(a, b)] false = .ok out ∧
      out.length =
        (spikes.filter (fun x => !(decide (a < x) && decide (x < b)))).length ∧
      out.count a = spikes.count a + spikes.count b ∧
      (∀ x ∈ spikes, x ≤ a → x ∈ out) ∧
      (∀ x ∈ spikes, b ≤ x → x - (b - a) ∈ out) := by
  refine ⟨get_range spikes none (some a) none ++
    get_range spikes (some b) none (some (b - a)), ?_, ?_, ?_, ?_, ?_⟩
  · show dropRangeLoop false spikes [(a, b)] 0 = _
    simp [dropRangeLoop]
  · rw [get_range_max, get_range_min_reset]
    simp only [List.length_append, List.length_map]
    exact length_filter_outside a b hab spikes
  · rw [get_range_max, get_range_min_reset]
    rw [List.count_append, count_map_sub]
    have hba : a + (b - a) = b := by ring
    rw [hba]
    rw [count_filter_of_pred a _ (by simp)]
    rw [count_filter_of_pred b _ (by simp)]
  · intro x hx hxa
    rw [get_range_max]
    exact List.mem_append_left _ (List.mem_filter.mpr ⟨hx, by simpa using hxa⟩)
  · intro x hx hbx
    rw [get_range_min_reset]
    refine List.mem_append_right _ ?_
    exact List.mem_map.mpr ⟨x, List.mem_filter.mpr ⟨hx, by simpa using hbx⟩, rfl⟩

theorem claim_C10_witness :
    ∃ out, drop_range [(1:ℚ), 2, 3, 4, 5] [((2:ℚ), 4)] false = .ok out ∧
      out.length =
        ([(1:ℚ), 2, 3, 4, 5].filter
          (fun x => !(decide ((2:ℚ) < x) && decide (x < 4)))).length ∧
      out.count 2 = [(1:ℚ), 2, 3, 4, 5].count 2 + [(1:ℚ), 2, 3, 4, 5].count 4 ∧
      (∀ x ∈ [(1:ℚ), 2, 3, 4, 5], x ≤ 2 → x ∈ out) ∧
      (∀ x ∈ [(1:ℚ), 2, 3, 4, 5], 4 ≤ x → x - ((4:ℚ) - 2) ∈ out) :=
  claim_C10 [(1:ℚ), 2, 3, 4, 5] 2 4 (by with_unfolding_all decide)

-- Splicing a sorted list back together around an element-free interval.

theorem sorted_outside_split (a b : ℚ) (hab : a ≤ b) :
    ∀ l : List ℚ, l.Pairwise (· ≤ ·) → (∀ x ∈ l, x < a ∨ b < x) →
      l.filter (fun x => decide (x ≤ a)) ++
        l.filter (fun x => decide (b ≤ x)) = l := by
  intro l
  induction l with
  | nil => intro _ _; rfl
  | cons x xs ih =>
      intro hp hall
      have hx : ∀ y ∈ xs, x ≤ y := (List.pairwise_cons.mp hp).1
      have hps : xs.Pairwise (· ≤ ·) := (List.pairwise_cons.mp hp).2
      have hall' : ∀ y ∈ xs, y < a ∨ b < y :=
        fun y hy => hall y (List.mem_cons_of_mem x hy)
      rcases hall x (List.mem_cons_self x xs) with hxa | hbx
      · have h2 : ¬(b ≤ x) := not_le.mpr (lt_of_lt_of_le hxa hab)
        rw [List.filter_cons, List.filter_cons,
          if_pos (by simp [le_of_lt hxa]), if_neg (by simp [h2])]
        rw [List.cons_append, ih hps hall']
      · have hnle : ¬(x ≤ a) := not_le.mpr (lt_of_le_of_lt hab hbx)
        have hxs_gt : ∀ y ∈ xs, b < y := fun y hy => lt_of_lt_of_le hbx (hx y hy)
        have hf1 : xs.filter (fun y => decide (y ≤ a)) = [] := by
          rw [List.filter_eq_nil_iff]
          intro y hy
          simp [not_le.mpr (lt_of_le_of_lt hab (hxs_gt y hy))]
        have hf2 : xs.filter (fun y => decide (b ≤ y)) = xs := by
          rw [List.filter_eq_self]
          intro y hy
          simp [le_of_lt (hxs_gt y hy)]
        rw [List.filter_cons, List.filter_cons, if_neg (by simp [hnle]),
          if_pos (by simp [le_of_lt hbx]), hf1, hf2]
        rfl

/-- C1 counterexample: with the unsorted spike array `[5, 1]` and the range
`[2, 4]` (which contains none of the spikes), the erase/reinstate round trip
returns `[1, 5]`, the same multiset but not the original sequence `[5, 1]`:
the splice reorders an unsorted input. -/
theorem claim_C1_cex :
    (∀ x ∈ [(5:ℚ), 1], ¬((2:ℚ) ≤ x ∧ x ≤ 4)) ∧
      drop_range [(5:ℚ), 1] [((2:ℚ), 4)] true = .ok [1, 3] ∧
      reinstate_range1 [(1:ℚ), 3] [((2:ℚ), 4)] = .ok [1, 5] ∧
      [(1:ℚ), 5] ≠ [5, 1] := by
  refine ⟨by with_unfolding_all decide, ?_, ?_, by with_unfolding_all decide⟩
  · with_unfolding_all rfl
  · with_unfolding_all rfl

/-- C1 (amended): for every 1-d spike array sorted in non-decreasing order and
every range `[a, b]` with `a <= b` containing no spike, the round trip
`reinstate_range(drop_range(spikes, [a, b]), [a, b])` succeeds and returns
exactly the original spike array (exactly, since arithmetic is exact here; in
floating point, up to rounding of `(x - (b-a)) + (b-a)`). For unsorted arrays
the round trip preserves only the multiset of timestamps, not their order. -/
theorem claim_C1 (spikes : List ℚ) (a b : ℚ)
    (hsort : spikes.Pairwise (· ≤ ·)) (hab : a ≤ b)
    (hempty : ∀ x ∈ spikes, ¬(a ≤ x ∧ x ≤ b)) :
    ∃ dropped, drop_range spikes [(a, b)] true = .ok dropped ∧
      reinstate_range1 dropped [(a, b)] = .ok spikes := by
  have htri : ∀ x ∈ spikes, x < a ∨ b < x := by
    intro x hx
    rcases lt_or_le x a with h | h
    · exact Or.inl h
    · exact Or.inr (not_le.mp (fun hxb => hempty x hx ⟨h, hxb⟩))
  have hchk : get_range spikes (some a) (some b) none = [] := by
    rw [get_range_both, List.filter_eq_nil_iff]
    intro x hx
    have := hempty x hx
    simp only [Bool.and_eq_true, decide_eq_true_eq]
    tauto
  have hdrop : drop_range spikes [(a, b)] true =
      .ok (get_range spikes none (some a) none ++
        get_range spikes (some b) none (some (b - a))) := by
    show dropRangeLoop true spikes [(a, b)] 0 = _
    simp [dropRangeLoop, hchk, lt_irrefl]
  have hD : get_range spikes none (some a) none ++
      get_range spikes (some b) none (some (b - a)) =
      spikes.filter (fun x => decide (x ≤ a)) ++
        (spikes.filter (fun x => decide (b ≤ x))).map
          (fun x => x - (b - a)) := by
    rw [get_range_max, get_range_min_reset]
  have hD1 : ∀ y ∈ spikes.filter (fun x => decide (x ≤ a)), y < a := by
    intro y hy
    have hmem := (List.mem_filter.mp hy).1
    have hya : y ≤ a := by simpa using (List.mem_filter.mp hy).2
    rcases htri y hmem with h | h
    · exact h
    · exact absurd hya (not_le.mpr (lt_of_le_of_lt hab h))
  have hD2 : ∀ y ∈ (spikes.filter (fun x => decide (b ≤ x))).map
      (fun x => x - (b - a)), a < y := by
    intro y hy
    rcases List.mem_map.mp hy with ⟨x, hxmem, hxeq⟩
    have hbx : b ≤ x := by simpa using (List.mem_filter.mp hxmem).2
    have hx' : b < x := by
      rcases htri x (List.mem_filter.mp hxmem).1 with h | h
      · exact absurd hbx (not_le.mpr (lt_of_lt_of_le h hab))
      · exact h
    rw [← hxeq]
    linarith
  have hrow : _reinstate_range_1d
      (spikes.filter (fun x => decide (x ≤ a)) ++
        (spikes.filter (fun x => decide (b ≤ x))).map (fun x => x - (b - a)))
      (a, b) = spikes := by
    simp only [_reinstate_range_1d, get_range_max, get_range_min,
      List.filter_append]
    have e1 : (spikes.filter (fun x => decide (x ≤ a))).filter
        (fun x => decide (x ≤ a)) = spikes.filter (fun x => decide (x ≤ a)) := by
      rw [List.filter_eq_self]
      intro y hy
      simp [le_of_lt (hD1 y hy)]
    have e2 : ((spikes.filter (fun x => decide (b ≤ x))).map
        (fun x => x - (b - a))).filter (fun x => decide (x ≤ a)) = [] := by
      rw [List.filter_eq_nil_iff]
      intro y hy
      simp [not_le.mpr (hD2 y hy)]
    have e3 : (spikes.filter (fun x => decide (x ≤ a))).filter
        (fun x => decide (a ≤ x)) = [] := by
      rw [List.filter_eq_nil_iff]
      intro y hy
      simp [not_le.mpr (hD1 y hy)]
    have e4 : ((spikes.filter (fun x => decide (b ≤ x))).map
        (fun x => x - (b - a))).filter (fun x => decide (a ≤ x)) =
        (spikes.filter (fun x => decide (b ≤ x))).map
          (fun x => x - (b - a)) := by
      rw [List.filter_eq_self]
      intro y hy
      simp [le_of_lt (hD2 y hy)]
    rw [e1, e2, e3, e4, List.append_nil, List.nil_append, List.map_map]
    have e5 : ((fun x => x + (b - a)) ∘ fun x => x - (b - a)) = fun x : ℚ => x := by
      funext x
      simp
    rw [e5]
    have e6 : (spikes.filter (fun x => decide (b ≤ x))).map (fun x : ℚ => x) =
        spikes.filter (fun x => decide (b ≤ x)) := by simp
    rw [e6]
    exact sorted_outside_split a b hab spikes hsort htri
  have hlen' : spikes.length =
      (spikes.filter (fun x => decide (x ≤ a))).length +
        (spikes.filter (fun x => decide (b ≤ x))).length := by
    conv_lhs => rw [← sorted_outside_split a b hab spikes hsort htri]
    simp
  refine ⟨spikes.filter (fun x => decide (x ≤ a)) ++
    (spikes.filter (fun x => decide (b ≤ x))).map (fun x => x - (b - a)),
    hD ▸ hdrop, ?_⟩
  simp [reinstate_range1, reinstate_range, reinstRows, hrow, hlen', Except.map,
    Except.bind]

theorem claim_C1_witness :
    ∃ dropped, drop_range [(1:ℚ), 5] [((2:ℚ), 4)] true = .ok dropped ∧
      reinstate_range1 dropped [((2:ℚ), 4)] = .ok [(1:ℚ), 5] :=
  claim_C1 [(1:ℚ), 5] 2 4 (by with_unfolding_all decide)
    (by with_unfolding_all decide) (by with_unfolding_all decide)

-- Indexing a mapped list below its length.

theorem getD_map_lt (f : ℚ → List ℚ) :
    ∀ (l : List ℚ) (i : Nat), i < l.length →
      (l.map f).getD i [] = f (l.getD i 0) := by
  intro l
  induction l with
  | nil => intro i h; simp at h
  | cons x xs ih =>
      intro i h
      cases i with
      | zero => rfl
      | succ m => exact ih m (by simpa using h)

/-- C4: `epoch_spikes_by_event` returns exactly one trial per event; trial `i`
holds precisely the spikes lying in `[events[i] + window0, events[i] +
window1]` (inclusive), re-zeroed by subtracting `events[i]`; output order
matches event order for every index, regardless of the numeric ordering of
spikes or events, and an event whose window holds no spikes yields the empty
list rather than an error. -/
theorem claim_C4 (spikes events : List ℚ) (window0 window1 : ℚ) (i : Nat)
    (h : i < events.length) :
    (epoch_spikes_by_event spikes events window0 window1).length =
        events.length ∧
      (epoch_spikes_by_event spikes events window0 window1).getD i [] =
        (spikes.filter (fun x => decide (events.getD i 0 + window0 ≤ x) &&
          decide (x ≤ events.getD i 0 + window1))).map
          (fun x => x - events.getD i 0) := by
  constructor
  · simp [epoch_spikes_by_event]
  · rw [epoch_spikes_by_event, getD_map_lt _ events i h]
    rfl

theorem claim_C4_witness :
    (epoch_spikes_by_event [(0:ℚ), 1, 2, 3] [2, 1] (-1) 1).length =
        ([(2:ℚ), 1]).length ∧
      (epoch_spikes_by_event [(0:ℚ), 1, 2, 3] [2, 1] (-1) 1).getD 0 [] =
        (([(0:ℚ), 1, 2, 3]).filter
          (fun x => decide (([(2:ℚ), 1]).getD 0 0 + (-1) ≤ x) &&
            decide (x ≤ ([(2:ℚ), 1]).getD 0 0 + 1))).map
          (fun x => x - ([(2:ℚ), 1]).getD 0 0) :=
  claim_C4 [(0:ℚ), 1, 2, 3] [2, 1] (-1) 1 0 (by decide)
